import Mathlib

/-!
Verification development for the ds-porter OCI artifact engine.

The definitions below are a shallow embedding of the Go source:
strings are modelled as Lean `String` (lists of characters; the strings
manipulated by the code are ASCII, where Go bytes and runes coincide),
`filepath.Clean` / `filepath.Join` / `filepath.Ext` are modelled for the
Unix separator `/`, maps are modelled as association lists, and the
filesystem / network effects are modelled by explicit inputs (a flag for
"the destination exists", an oracle giving the outcome of each remote
push, and so on).  Fallible operations return `Except String`.
-/

/-! ## Character and string utilities (Go `strings` package fragments) -/

/-- Go `unicode.IsSpace`: the white-space code points of the Latin-1 and
Unicode space categories recognised by `strings.TrimSpace`. -/
def goIsSpace (c : Char) : Bool :=
  decide (c = ' ' ∨ c = '\t' ∨ c = '\n' ∨ c.toNat = 11 ∨ c.toNat = 12 ∨ c = '\r' ∨
    c.toNat = 0x85 ∨ c.toNat = 0xA0 ∨ c.toNat = 0x1680 ∨
    (0x2000 ≤ c.toNat ∧ c.toNat ≤ 0x200A) ∨
    c.toNat = 0x2028 ∨ c.toNat = 0x2029 ∨ c.toNat = 0x202F ∨
    c.toNat = 0x205F ∨ c.toNat = 0x3000)

/-- Go `strings.TrimSpace` on a character list: drop white space from
both ends. -/
def trimSpaceL (l : List Char) : List Char :=
  ((l.dropWhile goIsSpace).reverse.dropWhile goIsSpace).reverse

/-- Go `strings.HasPrefix` on character lists. -/
def hasPreL : List Char → List Char → Bool
  | [], _ => true
  | _ :: _, [] => false
  | p :: ps, c :: cs => decide (p = c) && hasPreL ps cs

/-- Go `strings.HasPrefix` on strings. -/
def hasPreS (p s : String) : Bool := hasPreL p.data s.data

/-- Go `strings.HasSuffix` on character lists. -/
def hasSufL (suf l : List Char) : Bool := hasPreL suf.reverse l.reverse

/-- Go `strings.HasSuffix` on strings. -/
def hasSufS (s suf : String) : Bool := hasSufL suf.data s.data

/-- Go `strings.Contains` on character lists. -/
def hasSubL (needle : List Char) : List Char → Bool
  | [] => decide (needle = [])
  | c :: rest => hasPreL needle (c :: rest) || hasSubL needle rest

/-- Go `strings.Contains` on strings. -/
def hasSubS (s sub : String) : Bool := hasSubL sub.data s.data

/-- Go `strings.TrimPrefix` on character lists. -/
def trimPreL (pre l : List Char) : List Char :=
  if hasPreL pre l then l.drop pre.length else l

/-- Go `strings.TrimSuffix` on character lists. -/
def trimSufL (suf l : List Char) : List Char :=
  if hasSufL suf l then l.take (l.length - suf.length) else l

/-- ASCII lower-casing of one character, the fragment of Go simple case
folding exercised by `strings.EqualFold` on the ASCII registry and
platform names this program compares. -/
def asciiLower (c : Char) : Char :=
  if 'A' ≤ c ∧ c ≤ 'Z' then Char.ofNat (c.toNat + 32) else c

/-- Go `strings.EqualFold` restricted to the ASCII range. -/
def goEqualFold (a b : String) : Bool :=
  decide (a.data.map asciiLower = b.data.map asciiLower)

/-! ## Path model: Go `path/filepath` with the `/` separator -/

/-- Split a character list on a separator character; mirrors
`strings.Split` (always returns at least one component). -/
def splitOnCharL (sep : Char) : List Char → List (List Char)
  | [] => [[]]
  | c :: rest =>
    let r := splitOnCharL sep rest
    if c = sep then [] :: r
    else (c :: r.headD []) :: r.tail

/-- The `..` path component. -/
def ddComp : List Char := ['.', '.']

/-- One step of Go `filepath.Clean`'s element processing: skip empty and
`.` elements, let `..` pop the latest real element (or accumulate at the
start of a relative path, or vanish at the root of an absolute path),
and push every other element.  The accumulator holds the processed
elements in reverse order. -/
def cleanStep (isAbs : Bool) (acc : List (List Char)) (comp : List Char) : List (List Char) :=
  if comp = [] ∨ comp = ['.'] then acc
  else if comp = ddComp then
    match acc with
    | [] => if isAbs then [] else [ddComp]
    | p :: rest => if p = ddComp then ddComp :: acc else rest
  else comp :: acc

/-- The cleaned component list of a path (in order). -/
def cleanParts (isAbs : Bool) (l : List Char) : List (List Char) :=
  ((splitOnCharL '/' l).foldl (cleanStep isAbs) []).reverse

/-- Join components with `/`. -/
def joinComps : List (List Char) → List Char
  | [] => []
  | [c] => c
  | c :: c' :: rest => c ++ '/' :: joinComps (c' :: rest)

/-- Whether a path is absolute (starts with the separator). -/
def isAbsL (l : List Char) : Bool :=
  match l with
  | [] => false
  | c :: _ => decide (c = '/')

/-- Render a cleaned component list back to a path, as `filepath.Clean`
does: an absolute path keeps its leading `/`, an empty relative result
becomes `.`. -/
def renderPath (isAbs : Bool) (comps : List (List Char)) : List Char :=
  if isAbs then '/' :: joinComps comps
  else if comps = [] then ['.'] else joinComps comps

/-- Go `filepath.Clean` on a character list (Unix separator). -/
def goCleanL (l : List Char) : List Char :=
  renderPath (isAbsL l) (cleanParts (isAbsL l) l)

/-- Go `filepath.Clean` on strings. -/
def goClean (s : String) : String := ⟨goCleanL s.data⟩

/-- Go `filepath.Join` of two elements on character lists: empty
elements are dropped, the rest are joined with `/` and cleaned. -/
def goJoinL (a b : List Char) : List Char :=
  if a = [] then (if b = [] then [] else goCleanL b)
  else if b = [] then goCleanL a
  else goCleanL (a ++ '/' :: b)

/-- Go `filepath.Join` of two elements on strings. -/
def goJoin (a b : String) : String := ⟨goJoinL a.data b.data⟩

/-- Helper for `filepath.Ext`: walk the reversed path, accumulating the
characters seen until the first `.` (returning the extension including
the dot) or a separator or the start (returning `[]`). -/
def goExtAux (acc : List Char) : List Char → List Char
  | [] => []
  | c :: rest =>
    if c = '/' then []
    else if c = '.' then '.' :: acc
    else goExtAux (c :: acc) rest

/-- Go `filepath.Ext` on a character list. -/
def goExtL (l : List Char) : List Char := goExtAux [] l.reverse

/-- Go `filepath.Ext` on strings. -/
def goExt (s : String) : String := ⟨goExtL s.data⟩

/-- The absoluteness flag and cleaned component list of a path; used to
state that one path stays inside another. -/
def pathParts (s : String) : Bool × List (List Char) :=
  (isAbsL s.data, cleanParts (isAbsL s.data) s.data)

/-- `withinRoot root p` : the cleaned component path of `p` extends the
cleaned component path of `root` (same absoluteness), i.e. `p` denotes a
location at or below `root`. -/
def withinRoot (root p : String) : Prop :=
  (pathParts p).1 = (pathParts root).1 ∧
  ∃ extra, (pathParts p).2 = (pathParts root).2 ++ extra

/-! ## OCI data model (`ocispec` types, fields consulted by the code) -/

/-- `ocispec.Platform` (the fields `platformMatches` and the exporter
consult). -/
structure OPlatform where
  os : String
  architecture : String
  variant : String
  deriving DecidableEq

/-- `ocispec.Descriptor` (the fields this program consults). -/
structure ODescriptor where
  mediaType : String
  digest : String
  size : Int
  annots : List (String × String)
  platform : Option OPlatform
  deriving DecidableEq

/-- `ocispec.Index` (the fields this program consults). -/
structure OIndex where
  manifests : List ODescriptor
  annots : List (String × String)
  deriving DecidableEq

/-- `ExportOptions` from the porter client. -/
structure ExportOptions where
  allPlatforms : Bool
  platforms : List OPlatform
  usePlatformSubdirs : Bool
  deriving DecidableEq

/-- `manifestSelection` from the porter client. -/
structure ManifestSelection where
  descriptor : ODescriptor
  platform : Option OPlatform
  deriving DecidableEq

/-! ## Manifest/platform selector -/

/-- `platformMatches` from the porter client: an empty target list
matches everything; a manifest without platform metadata matches iff
exactly one platform was requested; otherwise some target must agree on
OS and architecture (case-insensitively), with the target's variant
empty or equal (case-insensitively). -/
def platformMatches (platform : Option OPlatform) (targets : List OPlatform) : Bool :=
  if targets.length = 0 then true
  else
    match platform with
    | none => decide (targets.length = 1)
    | some p =>
      targets.any (fun target =>
        if !goEqualFold target.os p.os then false
        else if !goEqualFold target.architecture p.architecture then false
        else target.variant = "" ∨ goEqualFold target.variant p.variant)

/-- `isIndexDescriptor` from the porter client. -/
def isIndexDescriptor (desc : ODescriptor) : Bool :=
  desc.mediaType = "application/vnd.oci.image.index.v1+json"

/-- The index branch of `selectManifests`: walk the parsed index,
keeping the manifests passing the platform filter; if nothing passed an
explicit filter, error; if nothing passed a trivial filter, fall back to
a single-entry index or error. -/
def selectFromIndex (index : OIndex) (opts : ExportOptions) : Except String (List ManifestSelection) :=
  let selections := index.manifests.foldl
    (fun acc manifest =>
      if opts.allPlatforms || platformMatches manifest.platform opts.platforms then
        acc ++ [{ descriptor := manifest, platform := manifest.platform }]
      else acc) []
  if selections.length = 0 && !opts.allPlatforms && decide (opts.platforms.length > 0) then
    .error "no manifests found for requested platform(s)"
  else if selections.length = 0 then
    match index.manifests with
    | [entry] => .ok [{ descriptor := entry, platform := entry.platform }]
    | _ => .error "no manifests found in index"
  else .ok selections

/-- `selectManifests` from the porter client; `fetched` abstracts the
fetch-and-parse of the index bytes from the OCI store. -/
def selectManifests (root : ODescriptor) (fetched : Except String OIndex) (opts : ExportOptions) : Except String (List ManifestSelection) :=
  if isIndexDescriptor root then
    match fetched with
    | .error e => .error e
    | .ok index => selectFromIndex index opts
  else .ok [{ descriptor := root, platform := root.platform }]

/-! ## Archive extraction (`extractTarGz`) -/

/-- Tar entry types distinguished by `extractTarGz`: directory, regular
file and symlink are materialized, every other type flag is skipped. -/
inductive TarType where
  | dir
  | reg
  | symlink
  | other
  deriving DecidableEq

/-- A tar header as far as `extractTarGz` consults it. -/
structure TarEntry where
  name : String
  typeflag : TarType
  linkname : String
  deriving DecidableEq

/-- The extraction loop of `extractTarGz`: for each entry clean its
name, reject a cleaned name beginning with `..`, and otherwise
materialize (or skip) the entry at `filepath.Join destination
cleanName`.  Returns the paths written before stopping and the error, if
any, that stopped the loop. -/
def extractLoop (destination : String) : List TarEntry → List String × Option String
  | [] => ([], none)
  | e :: rest =>
    let cleanName := goClean e.name
    if hasPreS ".." cleanName then
      ([], some ("archive entry " ++ e.name ++ " escapes destination"))
    else
      let targetPath := goJoin destination cleanName
      match e.typeflag with
      | TarType.other => extractLoop destination rest
      | _ =>
        let next := extractLoop destination rest
        (targetPath :: next.1, next.2)

/-- `extractTarGz` from the porter client (over the decoded entry
list). -/
def extractTarGz (destination : String) (entries : List TarEntry) : Except String (List String) :=
  match extractLoop destination entries with
  | (extracted, none) => .ok extracted
  | (_, some msg) => .error msg

/-! ## Export destination resolution and layer filenames -/

/-- `destinationLooksLikeFile` from the porter client: not ending in the
path separator and having a non-empty extension. -/
def destinationLooksLikeFile (path : String) : Bool :=
  if hasSufS path "/" then false else decide (goExt path ≠ "")

/-- The destination mode `ExportArtifact` ends up in: streaming to a
single file, or walking manifests into a directory (`created` records
whether the directory was created by the export). -/
inductive DestMode where
  | file
  | dir (created : Bool)
  deriving DecidableEq

/-- The destination-type resolution logic of `ExportArtifact`, as a
function of the destination path, its current filesystem state
(`destExists`, `destIsDirFS`), the number of selected manifests and the
`usePlatformSubdirs` option. -/
def resolveDestination (destination : String) (destExists destIsDirFS : Bool)
    (numManifests : Nat) (useSubdirs : Bool) : Except String DestMode :=
  let multiManifest := decide (numManifests > 1)
  let needsSubdirs := useSubdirs || multiManifest
  let looksFile := destinationLooksLikeFile destination
  let destIsDir := destExists && destIsDirFS
  let destIsFile := destExists && !destIsDir
  if destIsFile && (needsSubdirs || multiManifest) then
    .error "destination must be a directory when exporting multiple platforms"
  else if !destExists then
    if needsSubdirs then .ok (DestMode.dir true)
    else if looksFile then .ok DestMode.file
    else .ok (DestMode.dir true)
  else if destIsFile then
    if multiManifest then .error "cannot export multiple manifests to a single file"
    else .ok DestMode.file
  else .ok (DestMode.dir false)

/-- The OCI title annotation key consulted by
`determineLayerFilename`. -/
def titleKey : String := "org.opencontainers.image.title"

/-- `defaultExtension` from the porter client. -/
def defaultExtension (layer : ODescriptor) (platform : Option OPlatform) : String :=
  if (match platform with
      | some p => goEqualFold p.os "windows"
      | none => false) then ".exe"
  else if hasSubS layer.mediaType "tar+gzip" then ".tar.gz"
  else ""

/-- `sanitizeFilename`'s per-character replacement: the four single-byte
patterns of the `strings.NewReplacer` call. -/
def replaceChar (c : Char) : Char :=
  if c = '\\' ∨ c = '/' ∨ c = ':' ∨ c = ' ' then '-' else c

/-- `sanitizeFilename` from the porter client. -/
def sanitizeFilename (name : String) : String :=
  let clean := trimSpaceL (name.data.map replaceChar)
  if clean = [] then "artifact" else ⟨clean⟩

/-- The fall-through branch of `determineLayerFilename` (no usable title
annotation): derive the name from the artifact base name, appending a
default extension when it has none. -/
def layerBaseNamePart (layer : ODescriptor) (baseName : String) (platform : Option OPlatform) : String :=
  let name := if baseName = "" then "artifact" else baseName
  let ext := goExt name
  let name2 := if ext = "" then
      let dext := defaultExtension layer platform
      if dext ≠ "" ∧ hasSufS name dext = false then name ++ dext else name
    else name
  sanitizeFilename name2

/-- `determineLayerFilename` from the porter client. -/
def determineLayerFilename (layer : ODescriptor) (baseName : String) (platform : Option OPlatform) : String :=
  match layer.annots.lookup titleKey with
  | some title =>
    let trimmed : String := ⟨trimSpaceL title.data⟩
    if trimmed ≠ "" then sanitizeFilename trimmed
    else layerBaseNamePart layer baseName platform
  | none => layerBaseNamePart layer baseName platform

/-! ## Pull commit step (digest rename) of `PullArtifact` -/

/-- Go string slicing `s[:n]` for ASCII strings. -/
def takeStr (s : String) (n : Nat) : String := ⟨s.data.take n⟩

/-- What the commit step of `PullArtifact` determines: the artifact id
and cache path stored into the returned `ArtifactResult`, and whether
the freshly downloaded temporary directory was discarded. -/
structure PullCommit where
  id : String
  path : String
  tempDiscarded : Bool
  deriving DecidableEq

/-- The commit step of `PullArtifact` after the copy succeeded: compute
the digest-derived id, and if its cache path differs from the temporary
(reference-hash) path, either discard the temporary directory when the
final path already exists, or rename it (falling back to the temporary
id and path when the rename fails).  `tempID` stands for
`sha256(ref)[:16]`, `digestEncoded` for `desc.Digest.Encoded()`;
`finalExists` and `renameOk` are the outcomes of `os.Stat` and
`os.Rename`. -/
def commitCache (cacheDir tempID digestEncoded : String) (finalExists renameOk : Bool) : PullCommit :=
  let finalArtifactID := takeStr digestEncoded 16
  let cachePath := goJoin cacheDir tempID
  let finalCachePath := goJoin cacheDir finalArtifactID
  if finalCachePath ≠ cachePath then
    if finalExists then { id := finalArtifactID, path := finalCachePath, tempDiscarded := true }
    else if renameOk then { id := finalArtifactID, path := finalCachePath, tempDiscarded := false }
    else { id := tempID, path := cachePath, tempDiscarded := false }
  else { id := finalArtifactID, path := finalCachePath, tempDiscarded := false }

/-! ## Delivery metadata fallback chain of `PullArtifact` -/

/-- What the cache directory holds, as far as the metadata fallback
reads it: the parsed `annotations` object of the blob named by the root
digest (`none` when the file is missing or unparsable), and the parsed
top-level `annotations` of `index.json` (`none` when missing or
unparsable). -/
structure CacheFS where
  blobPayloadAnnots : Option (List (String × String))
  indexTopAnnots : Option (List (String × String))

/-- `loadDescriptorAnnotations` from the porter client: reject an empty
descriptor, read and parse the blob named by the digest, and reject a
payload with no annotation entries. -/
def loadDescriptorAnnots (fs : CacheFS) (desc : ODescriptor) : Except String (List (String × String)) :=
  if desc.digest = "" then .error "descriptor is empty"
  else
    match fs.blobPayloadAnnots with
    | none => .error "failed to read or parse blob"
    | some payload =>
      if payload.length = 0 then .error "descriptor contains no annotations"
      else .ok payload

/-- `loadIndexAnnotations` from the porter client: read `index.json` and
copy its top-level annotation entries (possibly none). -/
def loadIndexAnnots (fs : CacheFS) : Except String (List (String × String)) :=
  match fs.indexTopAnnots with
  | none => .error "failed to read or parse index.json"
  | some a => .ok a

/-- The metadata extraction of `PullArtifact`: start from the root
descriptor's annotation entries; if none, merge the blob annotation
entries (ignoring a failed load); if still none, merge the index
annotation entries (ignoring a failed load). -/
def pullMetadata (fs : CacheFS) (desc : ODescriptor) : List (String × String) :=
  let metadata := desc.annots
  let metadata2 := if metadata.length = 0 then
      match loadDescriptorAnnots fs desc with
      | .ok blob => metadata ++ blob
      | .error _ => metadata
    else metadata
  if metadata2.length = 0 then
    match loadIndexAnnots fs with
    | .ok idx => metadata2 ++ idx
    | .error _ => metadata2
  else metadata2

/-! ## Credential resolver -/

/-- `RegistryConfig` from the porter client. -/
structure RegistryConfig where
  name : String
  url : String
  username : String
  password : String
  token : String
  deriving DecidableEq

/-- `normalizeRegistry` from the porter client. -/
def normalizeRegistry (value : String) : String :=
  let trimmed := trimSpaceL value.data
  if trimmed = [] then ""
  else
    let t1 := trimPreL "https://".data trimmed
    let t2 := trimPreL "http://".data t1
    ⟨trimSufL "/".data t2⟩

/-- `defaultUsername` from the porter client. -/
def defaultUsername : String := "token"

/-- `resolveCredentials` from the porter client: normalize the host,
scan the registry list, skipping entries matching neither by URL nor by
name; for the first remaining entry use its password (or its token when
the password is empty), substituting the placeholder username when the
username is empty and a secret is present; with no remaining entry
return anonymous credentials. -/
def resolveCredentials (registries : List RegistryConfig) (registry : String) : String × String :=
  let normalized := normalizeRegistry registry
  match registries.find? (fun reg =>
      !(decide (normalized ≠ "") && decide (normalized ≠ normalizeRegistry reg.url) &&
        decide (normalized ≠ normalizeRegistry reg.name))) with
  | none => ("", "")
  | some reg =>
    let username := reg.username
    let password := reg.password
    let password2 := if password = "" ∧ reg.token ≠ "" then reg.token else password
    let username2 := if username = "" ∧ password2 ≠ "" then defaultUsername else username
    (username2, password2)

/-! ## Multi-arch publisher (`pkg/release/multiarch.go`) -/

/-- `release.Platform`. -/
structure RPlatform where
  os : String
  arch : String
  variant : String
  deriving DecidableEq

/-- `release.ManifestEntry`. -/
structure RManifestEntry where
  platform : String
  mediaType : String
  path : String
  deriving DecidableEq

/-- `release.Manifest` (the push-side manifest description file). -/
structure PushManifest where
  artifactType : String
  annots : List (String × String)
  manifests : List RManifestEntry
  deriving DecidableEq

/-- `release.ParsePlatform`: drop an `:os_version` suffix, split on `/`
into os, arch, variant (missing parts left empty; the error result of
the Go function is always nil). -/
def ParsePlatform (s : String) : RPlatform :=
  let cut := s.data.takeWhile (fun c => decide (c ≠ ':'))
  let parts := splitOnCharL '/' cut
  { os := ⟨parts.headD []⟩
    arch := ⟨(parts.drop 1).headD []⟩
    variant := ⟨(parts.drop 2).headD []⟩ }

/-- Insertion into the `map[Platform]ManifestEntry` that `Push` builds
(later entries with the same platform overwrite earlier ones). -/
def insertEntry (entries : List (RPlatform × RManifestEntry)) (platform : RPlatform)
    (entry : RManifestEntry) : List (RPlatform × RManifestEntry) :=
  if entries.any (fun kv => decide (kv.1 = platform)) then
    entries.map (fun kv => if kv.1 = platform then (platform, entry) else kv)
  else entries ++ [(platform, entry)]

/-- The entry-collection loop of `release.Push`: parse each platform,
reject an entry with an empty path, and key the entries by platform. -/
def buildEntriesAux (acc : List (RPlatform × RManifestEntry)) :
    List RManifestEntry → Except String (List (RPlatform × RManifestEntry))
  | [] => .ok acc
  | e :: rest =>
    if e.path = "" then .error ("path required for platform " ++ e.platform)
    else buildEntriesAux (insertEntry acc (ParsePlatform e.platform) e) rest

/-- The entries map built by `release.Push` from the manifest file. -/
def buildEntries (ms : List RManifestEntry) : Except String (List (RPlatform × RManifestEntry)) :=
  buildEntriesAux [] ms

/-- The externally visible registry writes of a push: a platform
manifest pushed by digest, the index pushed under a tag, and the extra
`latest` tag. -/
inductive PushEffect where
  | pushedBinary (platform : RPlatform)
  | pushedIndex (tag : String)
  | taggedLatest
  deriving DecidableEq

/-- `release.Pusher.PushAll`: push each platform binary in turn
(`outcome` abstracts the registry interaction of `PushBinary`),
aborting on the first failure.  Returns the writes performed and the
collected descriptors or the error. -/
def PushAll (outcome : RPlatform → RManifestEntry → Except String ODescriptor) :
    List (RPlatform × RManifestEntry) → List PushEffect × Except String (List (RPlatform × ODescriptor))
  | [] => ([], .ok [])
  | (platform, entry) :: rest =>
    match outcome platform entry with
    | .error msg =>
      ([], .error ("failed to push " ++ platform.os ++ "/" ++ platform.arch ++ ": " ++ msg))
    | .ok desc =>
      let next := PushAll outcome rest
      (PushEffect.pushedBinary platform :: next.1,
       match next.2 with
       | .error m => .error m
       | .ok descs => .ok ((platform, desc) :: descs))

/-- `release.Pusher.PushIndex`: derive the tag from the reference
(defaulting to `latest`), push the assembled index under that tag
(`indexPushOutcome` abstracts the registry copy), and additionally tag
`latest` when requested and the tag differs (`latestTagOutcome`
abstracts that registry call). -/
def PushIndex (reference : String) (tagLatest : Bool)
    (indexPushOutcome latestTagOutcome : Except String Unit) : List PushEffect × Except String String :=
  let baseRef := if reference.data.contains ':' then reference else reference ++ ":latest"
  let baseTag : String := ⟨(splitOnCharL ':' baseRef.data).getLastD []⟩
  match indexPushOutcome with
  | .error m => ([], .error ("failed to push index: " ++ m))
  | .ok _ =>
    if tagLatest && decide (baseTag ≠ "latest") then
      match latestTagOutcome with
      | .error m => ([PushEffect.pushedIndex baseTag], .error ("failed to tag latest: " ++ m))
      | .ok _ => ([PushEffect.pushedIndex baseTag, PushEffect.taggedLatest], .ok baseRef)
    else ([PushEffect.pushedIndex baseTag], .ok baseRef)

/-- `release.Pusher.Push`: build the platform-keyed entries, push all
platform binaries, then push the index.  Returns the registry writes
performed and the pushed reference or the error. -/
def Push (manifest : PushManifest) (reference : String) (tagLatest : Bool)
    (outcome : RPlatform → RManifestEntry → Except String ODescriptor)
    (indexPushOutcome latestTagOutcome : Except String Unit) : List PushEffect × Except String String :=
  match buildEntries manifest.manifests with
  | .error e => ([], .error e)
  | .ok entries =>
    match PushAll outcome entries with
    | (tr, .error e) => (tr, .error ("push failed: " ++ e))
    | (tr, .ok _) =>
      match PushIndex reference tagLatest indexPushOutcome latestTagOutcome with
      | (tr2, .error e) => (tr ++ tr2, .error ("push index failed: " ++ e))
      | (tr2, .ok ref) => (tr ++ tr2, .ok ref)

/-! ## Claim-side predicates and sample data -/

/-- The matching criterion exactly as claim C1 words it: an index entry
matches when its platform agrees with some requested platform on OS and
architecture case-insensitively, with the requested variant empty or
equal case-insensitively; an entry without platform metadata matches
nothing. -/
def claimMatches (platform : Option OPlatform) (targets : List OPlatform) : Bool :=
  match platform with
  | none => false
  | some p =>
    targets.any (fun t =>
      goEqualFold t.os p.os && goEqualFold t.architecture p.architecture &&
        (decide (t.variant = "") || goEqualFold t.variant p.variant))

/-- The claim C1 matching criterion amended with the code's rule for
entries without platform metadata: such an entry matches exactly when a
single platform was requested. -/
def amendedMatch (platform : Option OPlatform) (targets : List OPlatform) : Bool :=
  match platform with
  | none => decide (targets.length = 1)
  | some p =>
    targets.any (fun t =>
      goEqualFold t.os p.os && goEqualFold t.architecture p.architecture &&
        (decide (t.variant = "") || goEqualFold t.variant p.variant))

/-- Sample platform linux/amd64. -/
def pLinuxAmd64 : OPlatform := { os := "linux", architecture := "amd64", variant := "" }

/-- Sample platform linux/arm64. -/
def pLinuxArm64 : OPlatform := { os := "linux", architecture := "arm64", variant := "" }

/-- Sample platform darwin/amd64. -/
def pDarwinAmd64 : OPlatform := { os := "darwin", architecture := "amd64", variant := "" }

/-- Sample platform windows/amd64. -/
def pWinAmd64 : OPlatform := { os := "windows", architecture := "amd64", variant := "" }

/-- Sample index manifest descriptor for linux/amd64. -/
def mLinuxAmd64 : ODescriptor :=
  { mediaType := "application/vnd.oci.image.manifest.v1+json", digest := "sha256:aa11"
    size := 4, annots := [], platform := some pLinuxAmd64 }

/-- Sample index manifest descriptor for linux/arm64. -/
def mLinuxArm64 : ODescriptor :=
  { mediaType := "application/vnd.oci.image.manifest.v1+json", digest := "sha256:bb22"
    size := 4, annots := [], platform := some pLinuxArm64 }

/-- Sample index manifest descriptor for darwin/amd64. -/
def mDarwinAmd64 : ODescriptor :=
  { mediaType := "application/vnd.oci.image.manifest.v1+json", digest := "sha256:cc33"
    size := 4, annots := [], platform := some pDarwinAmd64 }

/-- Sample index manifest descriptor carrying no platform metadata. -/
def mNoPlatform : ODescriptor :=
  { mediaType := "application/vnd.oci.image.manifest.v1+json", digest := "sha256:dd44"
    size := 4, annots := [], platform := none }

/-- Sample three-platform index (linux/amd64, linux/arm64,
darwin/amd64). -/
def sampleIndex : OIndex :=
  { manifests := [mLinuxAmd64, mLinuxArm64, mDarwinAmd64], annots := [] }

/-- Sample manifest entry for the push witness. -/
def wEntry : RManifestEntry := { platform := "linux/amd64", mediaType := "", path := "bin/porter" }

/-- Sample push manifest for the push witness. -/
def wManifest : PushManifest := { artifactType := "", annots := [], manifests := [wEntry] }

/-- A push outcome oracle that fails every binary push. -/
def wFailOutcome : RPlatform → RManifestEntry → Except String ODescriptor :=
  fun _ _ => .error "connection refused"



/-- A plain path component: non-empty, not `.`, not `..`, and free of
the separator.  After cleaning, a path is a run of leading `..`
components followed by plain components. -/
def plainComp (c : List Char) : Prop :=
  c ≠ [] ∧ c ≠ ['.'] ∧ c ≠ ddComp ∧ '/' ∉ c

/-- The characters claim C10 asserts sanitized filenames never
contain. -/
def badFileChar (c : Char) : Prop :=
  c = '\\' ∨ c = '/' ∨ c = ':' ∨ c = ' '

instance decBadFileChar : DecidablePred badFileChar := fun c =>
  decidable_of_iff (c = '\\' ∨ c = '/' ∨ c = ':' ∨ c = ' ') Iff.rfl

/-! # Lemmas about the path model -/

theorem splitOnCharL_ne_nil (sep : Char) (l : List Char) : splitOnCharL sep l ≠ [] := by
  cases l with
  | nil => simp [splitOnCharL]
  | cons c rest =>
    unfold splitOnCharL
    split <;> simp

theorem splitOnCharL_append (sep : Char) (a b : List Char) :
    splitOnCharL sep (a ++ sep :: b) = splitOnCharL sep a ++ splitOnCharL sep b := by
  induction a with
  | nil => simp [splitOnCharL]
  | cons c a ih =>
    by_cases hc : c = sep
    · subst hc
      simp [splitOnCharL, ih]
    · obtain ⟨x, xs, hx⟩ := List.exists_cons_of_ne_nil (splitOnCharL_ne_nil sep a)
      simp [splitOnCharL, hc, ih, hx]

theorem sep_not_mem_splitOnCharL (sep : Char) (l : List Char) :
    ∀ c ∈ splitOnCharL sep l, sep ∉ c := by
  induction l with
  | nil => simp [splitOnCharL]
  | cons c rest ih =>
    by_cases hc : c = sep
    · subst hc
      simpa [splitOnCharL] using ih
    · obtain ⟨x, xs, hx⟩ := List.exists_cons_of_ne_nil (splitOnCharL_ne_nil sep rest)
      intro comp hcomp
      simp [splitOnCharL, hc, hx] at hcomp
      rcases hcomp with h | h
      · subst h
        intro hmem
        rcases List.mem_cons.mp hmem with h' | h'
        · exact hc h'.symm
        · exact ih x (by simp [hx]) h'
      · exact ih comp (by rw [hx]; exact List.mem_cons_of_mem _ h)

theorem splitOnCharL_of_not_mem (sep : Char) (l : List Char) (h : sep ∉ l) :
    splitOnCharL sep l = [l] := by
  induction l with
  | nil => simp [splitOnCharL]
  | cons c rest ih =>
    have hc : c ≠ sep := by
      rintro rfl
      exact h (by simp)
    have hrest : sep ∉ rest := fun hm => h (by simp [hm])
    simp [splitOnCharL, hc, ih hrest]

theorem joinComps_two (c c' : List Char) (rest : List (List Char)) :
    joinComps (c :: c' :: rest) = c ++ '/' :: joinComps (c' :: rest) := rfl

theorem joinComps_cons_append (c : List Char) (rest : List (List Char)) :
    ∃ t, joinComps (c :: rest) = c ++ t := by
  cases rest with
  | nil => exact ⟨[], by simp [joinComps]⟩
  | cons c' rest' => exact ⟨'/' :: joinComps (c' :: rest'), rfl⟩

theorem splitOnCharL_joinComps (comps : List (List Char)) (hne : comps ≠ [])
    (h : ∀ c ∈ comps, '/' ∉ c) :
    splitOnCharL '/' (joinComps comps) = comps := by
  induction comps with
  | nil => cases hne rfl
  | cons c rest ih =>
    cases rest with
    | nil => simpa [joinComps] using splitOnCharL_of_not_mem '/' c (h c (by simp))
    | cons c' rest' =>
      rw [joinComps_two, splitOnCharL_append, splitOnCharL_of_not_mem '/' c (h c (by simp)),
        ih (by simp) (fun x hx => h x (List.mem_cons_of_mem _ hx))]
      rfl

theorem cleanStep_skip_nil (isAbs : Bool) (acc : List (List Char)) :
    cleanStep isAbs acc [] = acc := by
  simp [cleanStep]

theorem cleanStep_skip_dot (isAbs : Bool) (acc : List (List Char)) :
    cleanStep isAbs acc ['.'] = acc := by
  simp [cleanStep]

theorem cleanStep_plain (isAbs : Bool) (acc : List (List Char)) (c : List Char)
    (hc : plainComp c) : cleanStep isAbs acc c = c :: acc := by
  obtain ⟨h1, h2, h3, _⟩ := hc
  simp [cleanStep, h1, h2, h3]

theorem foldl_cleanStep_plain (isAbs : Bool) (l : List (List Char)) :
    ∀ acc, (∀ c ∈ l, plainComp c) → l.foldl (cleanStep isAbs) acc = l.reverse ++ acc := by
  induction l with
  | nil => simp
  | cons c rest ih =>
    intro acc h
    rw [List.foldl_cons, cleanStep_plain isAbs acc c (h c (by simp)),
      ih _ (fun x hx => h x (List.mem_cons_of_mem _ hx))]
    simp

theorem foldl_cleanStep_replicate (k j : Nat) :
    (List.replicate k ddComp).foldl (cleanStep false) (List.replicate j ddComp) =
      List.replicate (k + j) ddComp := by
  induction k generalizing j with
  | zero => simp
  | succ k ih =>
    have hstep : cleanStep false (List.replicate j ddComp) ddComp = List.replicate (j + 1) ddComp := by
      cases j with
      | zero => simp [cleanStep, ddComp]
      | succ j =>
        rw [List.replicate_succ]
        simp [cleanStep, ddComp, List.replicate_succ]
    rw [List.replicate_succ, List.foldl_cons, hstep, ih (j + 1)]
    congr 1
    omega

theorem cleanStep_structure (isAbs : Bool) (P : List (List Char)) (k : Nat) (c : List Char)
    (hP : ∀ x ∈ P, plainComp x) (hk : isAbs = true → k = 0) (hc : '/' ∉ c) :
    ∃ P' k', cleanStep isAbs (P ++ List.replicate k ddComp) c = P' ++ List.replicate k' ddComp ∧
      (∀ x ∈ P', plainComp x) ∧ (isAbs = true → k' = 0) := by
  by_cases hskip : c = [] ∨ c = ['.']
  · refine ⟨P, k, ?_, hP, hk⟩
    simp [cleanStep, hskip]
  · by_cases hdd : c = ddComp
    · subst hdd
      cases P with
      | cons p P' =>
        refine ⟨P', k, ?_, fun x hx => hP x (List.mem_cons_of_mem _ hx), hk⟩
        have hp : p ≠ ddComp := (hP p (by simp)).2.2.1
        simp only [ddComp] at hp
        simp [cleanStep, ddComp, hp]
      | nil =>
        cases k with
        | zero =>
          cases habs : isAbs
          · refine ⟨[], 1, ?_, by simp, by simp [habs]⟩
            simp [cleanStep, ddComp, habs]
          · refine ⟨[], 0, ?_, by simp, fun _ => rfl⟩
            simp [cleanStep, ddComp, habs]
        | succ k0 =>
          refine ⟨[], k0 + 2, ?_, by simp, fun h => absurd (hk h) (by omega)⟩
          simp [cleanStep, ddComp, List.replicate_succ]
    · refine ⟨c :: P, k, ?_, ?_, hk⟩
      · simp [cleanStep, hskip, hdd]
      · intro x hx
        rcases List.mem_cons.mp hx with rfl | hx'
        · push_neg at hskip
          exact ⟨hskip.1, hskip.2, hdd, hc⟩
        · exact hP x hx'

theorem foldl_cleanStep_structure (isAbs : Bool) (l : List (List Char))
    (hl : ∀ c ∈ l, '/' ∉ c) :
    ∀ P k, (∀ x ∈ P, plainComp x) → (isAbs = true → k = 0) →
      ∃ P' k', l.foldl (cleanStep isAbs) (P ++ List.replicate k ddComp) =
          P' ++ List.replicate k' ddComp ∧ (∀ x ∈ P', plainComp x) ∧ (isAbs = true → k' = 0) := by
  induction l with
  | nil =>
    intro P k hP hk
    exact ⟨P, k, by simp, hP, hk⟩
  | cons c rest ih =>
    intro P k hP hk
    obtain ⟨P', k', hstep, hP', hk'⟩ :=
      cleanStep_structure isAbs P k c hP hk (hl c (by simp))
    rw [List.foldl_cons, hstep]
    exact ih (fun x hx => hl x (List.mem_cons_of_mem _ hx)) P' k' hP' hk'

theorem cleanParts_structure (isAbs : Bool) (l : List Char) :
    ∃ k P, cleanParts isAbs l = List.replicate k ddComp ++ P ∧
      (∀ x ∈ P, plainComp x) ∧ (isAbs = true → k = 0) := by
  obtain ⟨P', k', hfold, hP', hk'⟩ :=
    foldl_cleanStep_structure isAbs (splitOnCharL '/' l) (sep_not_mem_splitOnCharL '/' l) [] 0
      (by simp) (fun _ => rfl)
  simp only [List.nil_append, List.replicate] at hfold
  refine ⟨k', P'.reverse, ?_, ?_, hk'⟩
  · rw [cleanParts, hfold]
    simp [List.reverse_append, List.reverse_replicate]
  · intro x hx
    exact hP' x (List.mem_reverse.mp hx)

theorem strData_mk (l : List Char) : (⟨l⟩ : String).data = l := rfl

theorem hasPreL_self_append (p t : List Char) : hasPreL p (p ++ t) = true := by
  induction p with
  | nil => simp [hasPreL]
  | cons c cs ih => simp [hasPreL, ih]

theorem splitOnCharL_slash_cons (x : List Char) :
    splitOnCharL '/' ('/' :: x) = [] :: splitOnCharL '/' x := by
  simp [splitOnCharL]

theorem foldl_split_render (A : Bool) (acc : List (List Char)) (isAbsN : Bool)
    (P : List (List Char)) (hP : ∀ x ∈ P, plainComp x) :
    (splitOnCharL '/' (renderPath isAbsN P)).foldl (cleanStep A) acc = P.reverse ++ acc := by
  have hPslash : ∀ x ∈ P, '/' ∉ x := fun x hx => (hP x hx).2.2.2
  have hjoin : P ≠ [] → splitOnCharL '/' (joinComps P) = P :=
    fun h => splitOnCharL_joinComps P h hPslash
  cases isAbsN with
  | true =>
    rcases hP0 : P with _ | ⟨c, rest⟩
    · simp [renderPath, joinComps, splitOnCharL, cleanStep]
    · rw [show renderPath true (c :: rest) = '/' :: joinComps (c :: rest) by simp [renderPath],
        splitOnCharL_slash_cons, ← hP0, hjoin (by simp [hP0]),
        List.foldl_cons, cleanStep_skip_nil]
      exact foldl_cleanStep_plain A P acc hP
  | false =>
    rcases hP0 : P with _ | ⟨c, rest⟩
    · simp [renderPath, splitOnCharL, cleanStep]
    · rw [show renderPath false (c :: rest) = joinComps (c :: rest) by simp [renderPath],
        ← hP0, hjoin (by simp [hP0])]
      exact foldl_cleanStep_plain A P acc hP

theorem foldl_split_render_dd (A : Bool) (k : Nat) (P : List (List Char))
    (hP : ∀ x ∈ P, plainComp x) (hk : A = true → k = 0) :
    (splitOnCharL '/' (renderPath A (List.replicate k ddComp ++ P))).foldl (cleanStep A) [] =
      P.reverse ++ List.replicate k ddComp := by
  cases A with
  | true =>
    rw [hk rfl]
    simpa using foldl_split_render true [] true P hP
  | false =>
    by_cases hcomps : List.replicate k ddComp ++ P = []
    · have hk0 : k = 0 := by
        cases k with
        | zero => rfl
        | succ k0 => simp [List.replicate_succ] at hcomps
      have hP0 : P = [] := by
        rcases hP0 : P with _ | ⟨p, ps⟩
        · rfl
        · rw [hP0] at hcomps
          simp at hcomps
      subst hk0
      rw [hP0] at hcomps ⊢
      rw [hcomps]
      simp [renderPath, splitOnCharL, cleanStep]
    · have hslash : ∀ x ∈ List.replicate k ddComp ++ P, '/' ∉ x := by
        intro x hx
        rcases List.mem_append.mp hx with hx' | hx'
        · rw [List.eq_of_mem_replicate hx']
          simp [ddComp]
        · exact (hP x hx').2.2.2
      rw [show renderPath false (List.replicate k ddComp ++ P) =
            joinComps (List.replicate k ddComp ++ P) by simp [renderPath, hcomps],
        splitOnCharL_joinComps _ hcomps hslash,
        List.foldl_append]
      rw [show (List.replicate k ddComp).foldl (cleanStep false) [] =
            List.replicate k ddComp by
          simpa using foldl_cleanStep_replicate k 0]
      exact foldl_cleanStep_plain false P (List.replicate k ddComp) hP

theorem isAbsL_renderPath (A : Bool) (k : Nat) (P : List (List Char))
    (hP : ∀ x ∈ P, plainComp x) :
    isAbsL (renderPath A (List.replicate k ddComp ++ P)) = A := by
  cases A with
  | true => simp [renderPath, isAbsL]
  | false =>
    by_cases hcomps : List.replicate k ddComp ++ P = []
    · simp [renderPath, hcomps, isAbsL]
    · obtain ⟨c0, rest, hcr⟩ := List.exists_cons_of_ne_nil hcomps
      have hc0 : c0 ∈ List.replicate k ddComp ++ P := by
        rw [hcr]
        simp
      have hc0' : c0 = ddComp ∨ plainComp c0 := by
        rcases List.mem_append.mp hc0 with hx | hx
        · exact Or.inl (List.eq_of_mem_replicate hx)
        · exact Or.inr (hP _ hx)
      obtain ⟨t, ht⟩ := joinComps_cons_append c0 rest
      rw [show renderPath false (List.replicate k ddComp ++ P) =
            joinComps (List.replicate k ddComp ++ P) by simp [renderPath, hcomps],
        hcr, ht]
      rcases hc0' with rfl | hplain
      · simp [ddComp, isAbsL]
      · rcases hc : c0 with _ | ⟨ch, cr⟩
        · exact absurd hc hplain.1
        · have hch : ch ≠ '/' := by
            intro h
            exact hplain.2.2.2 (by simp [hc, h])
          simp [isAbsL, hch]

theorem cleanParts_renderPath (A : Bool) (k : Nat) (P : List (List Char))
    (hP : ∀ x ∈ P, plainComp x) (hk : A = true → k = 0) :
    cleanParts A (renderPath A (List.replicate k ddComp ++ P)) = List.replicate k ddComp ++ P := by
  rw [cleanParts, foldl_split_render_dd A k P hP hk]
  simp [List.reverse_append, List.reverse_replicate]

theorem pathParts_renderPath (A : Bool) (k : Nat) (P : List (List Char))
    (hP : ∀ x ∈ P, plainComp x) (hk : A = true → k = 0) :
    pathParts ⟨renderPath A (List.replicate k ddComp ++ P)⟩ =
      (A, List.replicate k ddComp ++ P) := by
  have habs : isAbsL (⟨renderPath A (List.replicate k ddComp ++ P)⟩ : String).data = A := by
    rw [strData_mk]
    exact isAbsL_renderPath A k P hP
  rw [pathParts, habs, strData_mk, cleanParts_renderPath A k P hP hk]

theorem goCleanL_structure (l : List Char) :
    ∃ k P, (∀ x ∈ P, plainComp x) ∧ (isAbsL l = true → k = 0) ∧
      goCleanL l = renderPath (isAbsL l) (List.replicate k ddComp ++ P) := by
  obtain ⟨k, P, hparts, hP, hk⟩ := cleanParts_structure (isAbsL l) l
  exact ⟨k, P, hP, hk, by rw [goCleanL, hparts]⟩

theorem goCleanL_of_guard (l : List Char)
    (h : hasPreL ddComp (goCleanL l) = false) :
    ∃ P, (∀ x ∈ P, plainComp x) ∧ goCleanL l = renderPath (isAbsL l) P := by
  obtain ⟨k, P, hP, hk, heq⟩ := goCleanL_structure l
  by_cases habs : isAbsL l = true
  · rw [hk habs] at heq
    exact ⟨P, hP, by simpa using heq⟩
  · have habs' : isAbsL l = false := by simpa using habs
    cases k with
    | zero => exact ⟨P, hP, by simpa using heq⟩
    | succ k0 =>
      exfalso
      rw [habs'] at heq
      rw [heq] at h
      rw [show List.replicate (k0 + 1) ddComp ++ P = ddComp :: (List.replicate k0 ddComp ++ P) by
          simp [List.replicate_succ]] at h
      obtain ⟨t, ht⟩ := joinComps_cons_append ddComp (List.replicate k0 ddComp ++ P)
      rw [show renderPath false (ddComp :: (List.replicate k0 ddComp ++ P)) =
            joinComps (ddComp :: (List.replicate k0 ddComp ++ P)) by simp [renderPath],
        ht, hasPreL_self_append] at h
      simp at h

theorem renderPath_ne_nil (A : Bool) (P : List (List Char)) (hP : ∀ x ∈ P, plainComp x) :
    renderPath A P ≠ [] := by
  cases A with
  | true => simp [renderPath]
  | false =>
    rcases hP0 : P with _ | ⟨c, rest⟩
    · simp [renderPath]
    · obtain ⟨t, ht⟩ := joinComps_cons_append c rest
      have hc : c ≠ [] := (hP c (by simp [hP0])).1
      simp [renderPath, ht, hc]

theorem goJoinL_extends (dest : List Char) (hd : dest ≠ []) (name : List Char)
    (h : hasPreL ddComp (goCleanL name) = false) :
    ∃ extra, (∀ x ∈ extra, plainComp x) ∧
      goJoinL dest (goCleanL name) =
        renderPath (isAbsL dest) (cleanParts (isAbsL dest) dest ++ extra) := by
  obtain ⟨P, hP, hn⟩ := goCleanL_of_guard name h
  have hne : goCleanL name ≠ [] := by
    rw [hn]
    exact renderPath_ne_nil _ P hP
  have habs : isAbsL (dest ++ '/' :: goCleanL name) = isAbsL dest := by
    obtain ⟨d, ds, hds⟩ := List.exists_cons_of_ne_nil hd
    rw [hds]
    rfl
  refine ⟨P, hP, ?_⟩
  rw [goJoinL, if_neg hd, if_neg hne, goCleanL, habs]
  rw [show cleanParts (isAbsL dest) (dest ++ '/' :: goCleanL name) =
        cleanParts (isAbsL dest) dest ++ P by
    rw [cleanParts, splitOnCharL_append, List.foldl_append, hn,
      foldl_split_render (isAbsL dest) _ (isAbsL name) P hP]
    simp [cleanParts, List.reverse_append]]

theorem withinRoot_goJoin (dest : String) (hd : dest ≠ "") (name : String)
    (h : hasPreS ".." (goClean name) = false) :
    withinRoot dest (goJoin dest (goClean name)) := by
  have hd' : dest.data ≠ [] := by
    intro hnil
    exact hd (String.ext (by rw [hnil]))
  have h' : hasPreL ddComp (goCleanL name.data) = false := by
    rw [show hasPreS ".." (goClean name) = hasPreL ddComp (goCleanL name.data) from rfl] at h
    exact h
  obtain ⟨extra, hex, heq⟩ := goJoinL_extends dest.data hd' name.data h'
  have hjoin : goJoin dest (goClean name) =
      ⟨renderPath (isAbsL dest.data)
        (cleanParts (isAbsL dest.data) dest.data ++ extra)⟩ := by
    rw [show goJoin dest (goClean name) = ⟨goJoinL dest.data (goCleanL name.data)⟩ from rfl, heq]
  obtain ⟨k, Pd, hPd, hPdplain, hkd⟩ := cleanParts_structure (isAbsL dest.data) dest.data
  have hall : ∀ x ∈ Pd ++ extra, plainComp x := by
    intro x hx
    rcases List.mem_append.mp hx with hx' | hx'
    · exact hPdplain x hx'
    · exact hex x hx'
  have hparts : pathParts (goJoin dest (goClean name)) =
      (isAbsL dest.data, cleanParts (isAbsL dest.data) dest.data ++ extra) := by
    rw [hjoin, hPd, List.append_assoc]
    rw [pathParts_renderPath (isAbsL dest.data) k (Pd ++ extra) hall hkd]
  constructor
  · rw [hparts]
    rfl
  · refine ⟨extra, ?_⟩
    rw [hparts]
    rfl

theorem extractLoop_within (dest : String) (hd : dest ≠ "") :
    ∀ entries, ∀ p ∈ (extractLoop dest entries).1, withinRoot dest p := by
  intro entries
  induction entries with
  | nil => simp [extractLoop]
  | cons e rest ih =>
    intro p hp
    by_cases hguard : hasPreS ".." (goClean e.name) = true
    · rw [extractLoop] at hp
      simp [hguard] at hp
    · have hguard' : hasPreS ".." (goClean e.name) = false := by
        simpa using hguard
      rw [extractLoop] at hp
      cases ht : e.typeflag with
      | other =>
        simp [hguard', ht] at hp
        exact ih p hp
      | dir =>
        simp [hguard', ht] at hp
        rcases hp with rfl | hp'
        · exact withinRoot_goJoin dest hd e.name hguard'
        · exact ih p hp'
      | reg =>
        simp [hguard', ht] at hp
        rcases hp with rfl | hp'
        · exact withinRoot_goJoin dest hd e.name hguard'
        · exact ih p hp'
      | symlink =>
        simp [hguard', ht] at hp
        rcases hp with rfl | hp'
        · exact withinRoot_goJoin dest hd e.name hguard'
        · exact ih p hp'

theorem extractLoop_error_of_bad (dest : String) :
    ∀ entries, ∀ e ∈ entries, hasPreS ".." (goClean e.name) = true →
      ∃ msg, (extractLoop dest entries).2 = some msg := by
  intro entries
  induction entries with
  | nil => simp
  | cons e0 rest ih =>
    intro e he hbad
    by_cases hguard : hasPreS ".." (goClean e0.name) = true
    · refine ⟨"archive entry " ++ e0.name ++ " escapes destination", ?_⟩
      rw [extractLoop]
      simp [hguard]
    · have hguard' : hasPreS ".." (goClean e0.name) = false := by
        simpa using hguard
      rcases List.mem_cons.mp he with rfl | he'
      · exact absurd hbad (by simp [hguard'])
      · obtain ⟨msg, hmsg⟩ := ih e he' hbad
        refine ⟨msg, ?_⟩
        rw [extractLoop]
        cases ht : e0.typeflag <;> simp [hguard', ht, hmsg]

theorem extractLoop_ok_writes (dest : String) :
    ∀ entries, (extractLoop dest entries).2 = none →
      (extractLoop dest entries).1 = entries.filterMap (fun e =>
        match e.typeflag with
        | TarType.other => none
        | _ => some (goJoin dest (goClean e.name))) := by
  intro entries
  induction entries with
  | nil => simp [extractLoop]
  | cons e rest ih =>
    intro hok
    by_cases hguard : hasPreS ".." (goClean e.name) = true
    · rw [extractLoop] at hok
      simp [hguard] at hok
    · have hguard' : hasPreS ".." (goClean e.name) = false := by
        simpa using hguard
      rw [extractLoop] at hok ⊢
      cases ht : e.typeflag with
      | other =>
        simp [hguard', ht, List.filterMap_cons] at hok ⊢
        exact ih hok
      | dir =>
        simp [hguard', ht, List.filterMap_cons] at hok ⊢
        exact ih hok
      | reg =>
        simp [hguard', ht, List.filterMap_cons] at hok ⊢
        exact ih hok
      | symlink =>
        simp [hguard', ht, List.filterMap_cons] at hok ⊢
        exact ih hok

/-! # Claim theorems -/

/-- Claim C2: during tar+gzip layer extraction, every archive entry
whose cleaned path begins with `..` causes extraction to fail with an
error; no file is written outside the destination root (every
materialized path stays within the cleaned destination, also when a
later entry aborts the extraction); in particular an entry named
`../../etc/passwd` makes extraction fail; and on success exactly the
regular-file, directory and symlink entries are materialized under the
destination while every other entry type is silently skipped. -/
theorem claim_C2_extraction (entries : List TarEntry) (dest : String) (hd : dest ≠ "") :
    ((∃ e ∈ entries, hasPreS ".." (goClean e.name) = true) →
      ∃ msg, extractTarGz dest entries = Except.error msg) ∧
    (∀ p ∈ (extractLoop dest entries).1, withinRoot dest p) ∧
    (∀ ps, extractTarGz dest entries = Except.ok ps →
      ps = entries.filterMap (fun e =>
        match e.typeflag with
        | TarType.other => none
        | _ => some (goJoin dest (goClean e.name)))) ∧
    extractTarGz dest [{ name := "../../etc/passwd", typeflag := TarType.reg, linkname := "" }] =
      Except.error "archive entry ../../etc/passwd escapes destination" := by
  refine ⟨?_, extractLoop_within dest hd entries, ?_, ?_⟩
  · rintro ⟨e, he, hbad⟩
    obtain ⟨msg, hmsg⟩ := extractLoop_error_of_bad dest entries e he hbad
    refine ⟨msg, ?_⟩
    rw [extractTarGz]
    rcases hloop : extractLoop dest entries with ⟨ws, err⟩
    rw [hloop] at hmsg
    simp only at hmsg
    rw [hmsg]
  · intro ps hps
    rw [extractTarGz] at hps
    rcases hloop : extractLoop dest entries with ⟨ws, err⟩
    rw [hloop] at hps
    cases err with
    | none =>
      simp only [Except.ok.injEq] at hps
      subst hps
      have hw := extractLoop_ok_writes dest entries (by rw [hloop])
      rw [hloop] at hw
      exact hw
    | some m => simp at hps
  · rfl

theorem selectFold_eq (p : ODescriptor → Bool) (l : List ODescriptor) :
    ∀ acc : List ManifestSelection,
      l.foldl (fun acc m =>
          if p m then acc ++ [{ descriptor := m, platform := m.platform }] else acc) acc =
        acc ++ (l.filter p).map (fun m => { descriptor := m, platform := m.platform }) := by
  induction l with
  | nil => simp
  | cons m rest ih =>
    intro acc
    by_cases hm : p m <;> simp [hm, ih, List.filter_cons]

theorem anyCongr {α : Type} (l : List α) (f g : α → Bool) (h : ∀ x ∈ l, f x = g x) :
    l.any f = l.any g := by
  induction l with
  | nil => rfl
  | cons x rest ih =>
    simp only [List.any_cons, h x (by simp), ih (fun y hy => h y (by simp [hy]))]

theorem filterCongr {α : Type} (l : List α) (f g : α → Bool) (h : ∀ x ∈ l, f x = g x) :
    l.filter f = l.filter g := by
  induction l with
  | nil => rfl
  | cons x rest ih =>
    simp only [List.filter_cons, h x (by simp), ih (fun y hy => h y (by simp [hy]))]

theorem platformMatches_eq_amended (p : Option OPlatform) (targets : List OPlatform)
    (h : targets ≠ []) : platformMatches p targets = amendedMatch p targets := by
  have hlen : ¬(targets.length = 0) := by
    intro h0
    exact h (List.length_eq_zero.mp h0)
  cases p with
  | none =>
    rw [platformMatches, if_neg hlen, amendedMatch]
  | some pf =>
    rw [platformMatches, if_neg hlen, amendedMatch]
    apply anyCongr
    intro t ht
    cases hos : goEqualFold t.os pf.os <;>
      cases harch : goEqualFold t.architecture pf.architecture <;>
      simp [hos, harch]

theorem selectFromIndex_explicit (index : OIndex) (opts : ExportOptions)
    (hall : opts.allPlatforms = false) (hne : opts.platforms ≠ []) :
    selectFromIndex index opts =
      (if index.manifests.filter (fun m => amendedMatch m.platform opts.platforms) = [] then
        Except.error "no manifests found for requested platform(s)"
      else Except.ok ((index.manifests.filter
          (fun m => amendedMatch m.platform opts.platforms)).map
        (fun m => { descriptor := m, platform := m.platform }))) := by
  have hlen : 0 < opts.platforms.length := by
    cases hp : opts.platforms with
    | nil => exact absurd hp hne
    | cons a l => simp [hp]
  have hfil : index.manifests.filter
      (fun m => opts.allPlatforms || platformMatches m.platform opts.platforms) =
      index.manifests.filter (fun m => amendedMatch m.platform opts.platforms) := by
    apply filterCongr
    intro m hm
    rw [hall, platformMatches_eq_amended m.platform opts.platforms hne]
    simp
  rw [selectFromIndex]
  simp only [selectFold_eq (fun m => opts.allPlatforms || platformMatches m.platform opts.platforms)
    index.manifests [], List.nil_append, hfil]
  by_cases hempty : index.manifests.filter (fun m => amendedMatch m.platform opts.platforms) = []
  · rw [if_pos hempty]
    simp [hempty, hall, hlen]
  · rw [if_neg hempty]
    have hnall : ¬(∀ a ∈ index.manifests, amendedMatch a.platform opts.platforms = false) := by
      intro hf
      refine hempty (List.filter_eq_nil_iff.mpr ?_)
      intro a ha
      simp [hf a ha]
    simp [hnall]

/-- Claim C1 (amended): for every OCI index and every export filter with
`allPlatforms` unset and a non-empty platform list, manifest selection
returns exactly those index entries whose platform matches some
requested platform (OS and architecture compared case-insensitively,
and the requested variant either empty or equal case-insensitively),
where an entry with absent platform metadata counts as matching iff
exactly one platform was requested; it returns the error "no manifests
found for requested platform(s)" when no entry matches.  On the sample
three-platform index, requesting linux/arm64 selects exactly one
manifest, `allPlatforms` selects three, and requesting windows/amd64
errors. -/
theorem claim_C1_selection :
    (∀ (index : OIndex) (opts : ExportOptions),
      opts.allPlatforms = false → opts.platforms ≠ [] →
      (index.manifests.filter (fun m => amendedMatch m.platform opts.platforms) = [] →
        selectFromIndex index opts = Except.error "no manifests found for requested platform(s)") ∧
      (index.manifests.filter (fun m => amendedMatch m.platform opts.platforms) ≠ [] →
        selectFromIndex index opts = Except.ok
          ((index.manifests.filter (fun m => amendedMatch m.platform opts.platforms)).map
            (fun m => { descriptor := m, platform := m.platform })))) ∧
    selectFromIndex sampleIndex
        { allPlatforms := false, platforms := [pLinuxArm64], usePlatformSubdirs := false } =
      Except.ok [{ descriptor := mLinuxArm64, platform := some pLinuxArm64 }] ∧
    selectFromIndex sampleIndex
        { allPlatforms := true, platforms := [], usePlatformSubdirs := false } =
      Except.ok [{ descriptor := mLinuxAmd64, platform := some pLinuxAmd64 },
        { descriptor := mLinuxArm64, platform := some pLinuxArm64 },
        { descriptor := mDarwinAmd64, platform := some pDarwinAmd64 }] ∧
    selectFromIndex sampleIndex
        { allPlatforms := false, platforms := [pWinAmd64], usePlatformSubdirs := false } =
      Except.error "no manifests found for requested platform(s)" := by
  refine ⟨?_, rfl, rfl, rfl⟩
  intro index opts hall hne
  constructor
  · intro hfil
    rw [selectFromIndex_explicit index opts hall hne, if_pos hfil]
  · intro hfil
    rw [selectFromIndex_explicit index opts hall hne, if_neg hfil]

/-- Witness for claim C1: a one-entry linux/amd64 index filtered for
windows/amd64 yields the hard error. -/
theorem claim_C1_selection_witness :
    selectFromIndex { manifests := [mLinuxAmd64], annots := [] }
        { allPlatforms := false, platforms := [pWinAmd64], usePlatformSubdirs := false } =
      Except.error "no manifests found for requested platform(s)" :=
  (claim_C1_selection.1 { manifests := [mLinuxAmd64], annots := [] }
      { allPlatforms := false, platforms := [pWinAmd64], usePlatformSubdirs := false }
      rfl (by decide)).1 rfl

/-- Counterexample to claim C1 as stated: in an index whose single
manifest carries no platform metadata, no entry's platform matches the
explicit filter [linux/amd64] under the claim's matching criterion
(`claimMatches`), so the claim demands the "no manifests found" error;
yet selection returns that platform-less manifest, because the code
counts a nil platform as matching any single-platform filter. -/
theorem claim_C1_counterexample :
    (OIndex.mk [mNoPlatform] []).manifests.filter
        (fun m => claimMatches m.platform [pLinuxAmd64]) = [] ∧
    selectFromIndex { manifests := [mNoPlatform], annots := [] }
        { allPlatforms := false, platforms := [pLinuxAmd64], usePlatformSubdirs := false } =
      Except.ok [{ descriptor := mNoPlatform, platform := none }] :=
  ⟨rfl, rfl⟩

/-- Claim C8: for every OCI index containing exactly one manifest, with
no explicit platforms requested (`allPlatforms` unset and an empty
platform list) selection returns that single manifest rather than an
error or an empty result (with an empty filter the single manifest
always matches, so the dedicated single-entry fallback branch is never
needed to make this hold). -/
theorem claim_C8_single_fallback (index : OIndex) (m : ODescriptor)
    (h : index.manifests = [m]) :
    selectFromIndex index { allPlatforms := false, platforms := [], usePlatformSubdirs := false } =
      Except.ok [{ descriptor := m, platform := m.platform }] := by
  rw [selectFromIndex, h]
  simp [platformMatches]

/-- Witness for claim C8 on a concrete single-manifest index. -/
theorem claim_C8_single_fallback_witness :
    selectFromIndex { manifests := [mNoPlatform], annots := [] }
        { allPlatforms := false, platforms := [], usePlatformSubdirs := false } =
      Except.ok [{ descriptor := mNoPlatform, platform := none }] :=
  claim_C8_single_fallback { manifests := [mNoPlatform], annots := [] } mNoPlatform rfl

/-- Claim C9: a manifest whose platform metadata is absent matches an
explicit non-empty platform filter if and only if exactly one platform
was requested, irrespective of which platforms they are. -/
theorem claim_C9_nil_platform (targets : List OPlatform) (h : targets ≠ []) :
    platformMatches none targets = true ↔ targets.length = 1 := by
  have hlen : ¬(targets.length = 0) := by
    intro h0
    exact h (List.length_eq_zero.mp h0)
  rw [platformMatches, if_neg hlen]
  simp

/-- Witness for claim C9: a platform-less entry matches the filter
[linux/amd64]. -/
theorem claim_C9_nil_platform_witness :
    platformMatches none [pLinuxAmd64] = true :=
  (claim_C9_nil_platform [pLinuxAmd64] (by decide)).mpr rfl

/-- Claim C5 (amended): `ExportArtifact` resolves the destination type
in this order: an existing directory always gives directory mode; an
existing file gives file mode, which is an error when more than one
manifest was selected or platform subdirectories were requested (not
only when more than one manifest was selected); a non-existing
destination gives directory mode (created) whenever subdirectories are
required (`usePlatformSubdirs` set or more than one manifest selected),
and otherwise file mode exactly when the path has a file extension and
no trailing separator, else directory mode (created). -/
theorem claim_C5_destination :
    (∀ (d : String) (n : Nat) (u : Bool),
      resolveDestination d true true n u = Except.ok (DestMode.dir false)) ∧
    (∀ (d : String) (n : Nat) (u : Bool), 1 < n →
      resolveDestination d true false n u =
        Except.error "destination must be a directory when exporting multiple platforms") ∧
    (∀ (d : String) (n : Nat),
      resolveDestination d true false n true =
        Except.error "destination must be a directory when exporting multiple platforms") ∧
    (∀ d : String, resolveDestination d true false 1 false = Except.ok DestMode.file) ∧
    (∀ (d : String) (b : Bool) (n : Nat) (u : Bool), u = true ∨ 1 < n →
      resolveDestination d false b n u = Except.ok (DestMode.dir true)) ∧
    (∀ (d : String) (b : Bool) (n : Nat), n ≤ 1 → destinationLooksLikeFile d = true →
      resolveDestination d false b n false = Except.ok DestMode.file) ∧
    (∀ (d : String) (b : Bool) (n : Nat), n ≤ 1 → destinationLooksLikeFile d = false →
      resolveDestination d false b n false = Except.ok (DestMode.dir true)) ∧
    destinationLooksLikeFile "out.bin" = true ∧
    destinationLooksLikeFile "out" = false ∧
    destinationLooksLikeFile "out.bin/" = false := by
  refine ⟨?_, ?_, ?_, ?_, ?_, ?_, ?_, rfl, rfl, rfl⟩
  · intro d n u
    simp [resolveDestination]
  · intro d n u hn
    simp [resolveDestination, hn]
  · intro d n
    simp [resolveDestination]
  · intro d
    simp [resolveDestination]
  · intro d b n u hu
    rcases hu with rfl | hn
    · simp [resolveDestination]
    · simp [resolveDestination, hn]
  · intro d b n hn hlooks
    have hn' : ¬(1 < n) := by omega
    simp [resolveDestination, hn', hlooks]
  · intro d b n hn hlooks
    have hn' : ¬(1 < n) := by omega
    simp [resolveDestination, hn', hlooks]

/-- Witness for claim C5: an existing file destination with two selected
manifests is rejected. -/
theorem claim_C5_destination_witness :
    resolveDestination "out.bin" true false 2 false =
      Except.error "destination must be a directory when exporting multiple platforms" :=
  claim_C5_destination.2.1 "out.bin" 2 false (by omega)

/-- Counterexample to claim C5 as stated: a destination that exists as a
file, with exactly one selected manifest but `usePlatformSubdirs` set,
is claimed to use file mode (no error, since exactly one manifest was
selected), yet the code rejects it with the multiple-platforms error. -/
theorem claim_C5_counterexample :
    resolveDestination "out.bin" true false 1 true =
      Except.error "destination must be a directory when exporting multiple platforms" ∧
    resolveDestination "out.bin" true false 1 true ≠ Except.ok DestMode.file :=
  ⟨rfl, fun h => Except.noConfusion h⟩

theorem mem_of_mem_dropWhileChar (p : Char → Bool) (l : List Char) (a : Char)
    (h : a ∈ l.dropWhile p) : a ∈ l := by
  induction l with
  | nil => simp at h
  | cons c rest ih =>
    rw [List.dropWhile_cons] at h
    by_cases hp : p c
    · simp [hp] at h
      exact List.mem_cons_of_mem _ (ih h)
    · simpa [hp] using h

theorem mem_trimSpaceL {l : List Char} {c : Char} (h : c ∈ trimSpaceL l) : c ∈ l := by
  rw [trimSpaceL, List.mem_reverse] at h
  have h1 := mem_of_mem_dropWhileChar goIsSpace _ _ h
  rw [List.mem_reverse] at h1
  exact mem_of_mem_dropWhileChar goIsSpace _ _ h1

theorem replaceChar_not_bad (a : Char) : ¬ badFileChar (replaceChar a) := by
  rw [replaceChar]
  by_cases hb : a = '\\' ∨ a = '/' ∨ a = ':' ∨ a = ' '
  · rw [if_pos hb]
    decide
  · rw [if_neg hb]
    exact hb

theorem sanitizeFilename_ok (s : String) :
    sanitizeFilename s ≠ "" ∧ ∀ c ∈ (sanitizeFilename s).data, ¬ badFileChar c := by
  rw [sanitizeFilename]
  by_cases hcl : trimSpaceL (s.data.map replaceChar) = []
  · rw [if_pos hcl]
    exact ⟨by decide, by decide⟩
  · rw [if_neg hcl]
    constructor
    · intro hcontra
      exact hcl (by simpa using congrArg String.data hcontra)
    · intro c hc
      rw [strData_mk] at hc
      obtain ⟨a, _, rfl⟩ := List.mem_map.mp (mem_trimSpaceL hc)
      exact replaceChar_not_bad a

theorem determineLayerFilename_none (layer : ODescriptor) (baseName : String)
    (platform : Option OPlatform) (h : layer.annots.lookup titleKey = none) :
    determineLayerFilename layer baseName platform = layerBaseNamePart layer baseName platform := by
  rw [determineLayerFilename, h]

theorem determineLayerFilename_some (layer : ODescriptor) (baseName : String)
    (platform : Option OPlatform) (title : String)
    (h : layer.annots.lookup titleKey = some title) :
    determineLayerFilename layer baseName platform =
      (if (⟨trimSpaceL title.data⟩ : String) ≠ "" then sanitizeFilename ⟨trimSpaceL title.data⟩
       else layerBaseNamePart layer baseName platform) := by
  rw [determineLayerFilename, h]

theorem layerBaseNamePart_eq_sanitize (layer : ODescriptor) (baseName : String)
    (platform : Option OPlatform) :
    ∃ s, layerBaseNamePart layer baseName platform = sanitizeFilename s :=
  ⟨_, rfl⟩

/-- Claim C10 (amended): `sanitizeFilename` is total and returns, for
every input, a non-empty string (defaulting to "artifact") containing
no backslash, forward slash, colon or space; consequently every layer
filename chosen by `determineLayerFilename` is a non-empty single path
component (it splits on the separator into exactly itself).  The
original claim's further conclusion — that the filename therefore
cannot escape the export target directory — does not hold: the
relative component ".." survives sanitization (see the
counterexample). -/
theorem claim_C10_sanitize :
    (∀ s : String, sanitizeFilename s ≠ "" ∧ ∀ c ∈ (sanitizeFilename s).data, ¬ badFileChar c) ∧
    (∀ (layer : ODescriptor) (baseName : String) (platform : Option OPlatform),
      determineLayerFilename layer baseName platform ≠ "" ∧
      (∀ c ∈ (determineLayerFilename layer baseName platform).data, ¬ badFileChar c) ∧
      splitOnCharL '/' (determineLayerFilename layer baseName platform).data =
        [(determineLayerFilename layer baseName platform).data]) := by
  have hsan : ∀ s : String, sanitizeFilename s ≠ "" ∧
      (∀ c ∈ (sanitizeFilename s).data, ¬ badFileChar c) ∧
      splitOnCharL '/' (sanitizeFilename s).data = [(sanitizeFilename s).data] := by
    intro s
    obtain ⟨hne, hchars⟩ := sanitizeFilename_ok s
    refine ⟨hne, hchars, splitOnCharL_of_not_mem '/' _ ?_⟩
    intro hmem
    exact hchars '/' hmem (Or.inr (Or.inl rfl))
  refine ⟨sanitizeFilename_ok, ?_⟩
  intro layer baseName platform
  cases hlk : layer.annots.lookup titleKey with
  | none =>
    rw [determineLayerFilename_none layer baseName platform hlk]
    obtain ⟨s, hs⟩ := layerBaseNamePart_eq_sanitize layer baseName platform
    rw [hs]
    exact hsan s
  | some title =>
    rw [determineLayerFilename_some layer baseName platform title hlk]
    by_cases ht : (⟨trimSpaceL title.data⟩ : String) ≠ ""
    · rw [if_pos ht]
      exact hsan _
    · rw [if_neg ht]
      obtain ⟨s, hs⟩ := layerBaseNamePart_eq_sanitize layer baseName platform
      rw [hs]
      exact hsan s

/-- Counterexample to claim C10 as stated: the replacer touches only
backslash, slash, colon and space, so a crafted title annotation ".."
survives sanitization unchanged; `determineLayerFilename` then returns
"..", and joining it onto the export target directory denotes the
parent of that directory — the chosen filename can escape the export
target. -/
theorem claim_C10_counterexample :
    sanitizeFilename ".." = ".." ∧
    determineLayerFilename { mediaType := "application/x", digest := "d", size := 1, annots := [(titleKey, "..")], platform := none } "base" none = ".." ∧
    goJoin "/tmp/out" ".." = "/tmp" ∧
    ¬ withinRoot "/tmp/out" (goJoin "/tmp/out" "..") := by
  refine ⟨rfl, rfl, rfl, ?_⟩
  rintro ⟨-, extra, hex⟩
  rw [show (pathParts (goJoin "/tmp/out" "..")).2 = [['t', 'm', 'p']] from rfl,
    show (pathParts "/tmp/out").2 = [['t', 'm', 'p'], ['o', 'u', 't']] from rfl] at hex
  simp at hex

/-- Witness for claim C10 on concrete inputs: a name with separators and
spaces sanitizes to a non-empty safe component, a concrete character of
the result is safe, and the layer-filename chain inherits the
property. -/
theorem claim_C10_sanitize_witness :
    sanitizeFilename "a/b: c" ≠ "" ∧ ¬ badFileChar 'a' ∧
    determineLayerFilename mLinuxAmd64 "" none ≠ "" :=
  ⟨(claim_C10_sanitize.1 "a/b: c").1,
   (claim_C10_sanitize.1 "a/b: c").2 'a' (by decide),
   (claim_C10_sanitize.2 mLinuxAmd64 "" none).1⟩

/-- Claim C3 (amended): after the commit step of every successful pull,
the cache directory path always equals the cache root joined with the
returned id (directory and id are named identically); the id equals the
first 16 hex characters of the root descriptor's digest whenever the
digest-named directory already exists, or the rename succeeds, or no
rename is needed — only a failed rename falls back to the temporary
reference-hash id; and on a deduplication hit (the digest-named
directory already exists and differs from the temporary path) the
freshly downloaded temporary directory is discarded rather than
overwritten while the commit still completes. -/
theorem claim_C3_commit (cacheDir tempID digestEncoded : String) (finalExists renameOk : Bool) :
    ((commitCache cacheDir tempID digestEncoded finalExists renameOk).path =
      goJoin cacheDir (commitCache cacheDir tempID digestEncoded finalExists renameOk).id) ∧
    (finalExists = true →
      (commitCache cacheDir tempID digestEncoded finalExists renameOk).id =
        takeStr digestEncoded 16 ∧
      (goJoin cacheDir (takeStr digestEncoded 16) ≠ goJoin cacheDir tempID →
        (commitCache cacheDir tempID digestEncoded finalExists renameOk).tempDiscarded = true)) ∧
    (renameOk = true →
      (commitCache cacheDir tempID digestEncoded finalExists renameOk).id =
        takeStr digestEncoded 16) := by
  simp only [commitCache]
  by_cases hne : goJoin cacheDir (takeStr digestEncoded 16) ≠ goJoin cacheDir tempID
  · rw [if_pos hne]
    cases finalExists with
    | true => simp
    | false =>
      cases renameOk with
      | true => simp
      | false => simp
  · rw [if_neg hne]
    push_neg at hne
    simp [hne]

/-- Witness for claim C3 on concrete inputs (rename needed and
successful). -/
theorem claim_C3_commit_witness :
    (commitCache "cache" "aaaaaaaaaaaaaaaa"
      "bbbbbbbbbbbbbbbbbbbbbbbbbbbbbbbbbbbbbbbbbbbbbbbbbbbbbbbbbbbbbbbb" false true).id =
      takeStr "bbbbbbbbbbbbbbbbbbbbbbbbbbbbbbbbbbbbbbbbbbbbbbbbbbbbbbbbbbbbbbbb" 16 :=
  (claim_C3_commit "cache" "aaaaaaaaaaaaaaaa"
    "bbbbbbbbbbbbbbbbbbbbbbbbbbbbbbbbbbbbbbbbbbbbbbbbbbbbbbbbbbbbbbbb" false true).2.2 rfl

/-- Counterexample to claim C3 as stated: with the digest-named
directory absent and the rename failing, the pull still succeeds but the
returned id is the temporary reference-hash id, not the first 16 hex
characters of the digest; so "after every successful PullArtifact the
ID equals digest[:16]" is false on the rename-failure path. -/
theorem claim_C3_counterexample :
    (commitCache "cache" "aaaaaaaaaaaaaaaa"
        "bbbbbbbbbbbbbbbbbbbbbbbbbbbbbbbbbbbbbbbbbbbbbbbbbbbbbbbbbbbbbbbb" false false).id =
      "aaaaaaaaaaaaaaaa" ∧
    (commitCache "cache" "aaaaaaaaaaaaaaaa"
        "bbbbbbbbbbbbbbbbbbbbbbbbbbbbbbbbbbbbbbbbbbbbbbbbbbbbbbbbbbbbbbbb" false false).id ≠
      takeStr "bbbbbbbbbbbbbbbbbbbbbbbbbbbbbbbbbbbbbbbbbbbbbbbbbbbbbbbbbbbbbbbb" 16 := by
  constructor
  · rfl
  · decide

theorem loadDescriptorAnnots_ok_ne_zero (fs : CacheFS) (desc : ODescriptor)
    (blob : List (String × String)) (h : loadDescriptorAnnots fs desc = Except.ok blob) :
    ¬(blob.length = 0) := by
  rw [loadDescriptorAnnots] at h
  by_cases hd : desc.digest = ""
  · simp [hd] at h
  · rw [if_neg hd] at h
    cases hb : fs.blobPayloadAnnots with
    | none =>
      rw [hb] at h
      simp at h
    | some payload =>
      rw [hb] at h
      by_cases hl : payload.length = 0
      · simp [hl] at h
      · simp [hl] at h
        subst h
        exact hl

/-- Claim C6: `PullArtifact` extracts delivery metadata by preferring
the root descriptor's annotation entries; only when those yield no
entries does it read the annotation entries of the blob named by the
root digest, and only when that also yields none does it read the
top-level annotation entries of the cached `index.json` — exactly this
three-step fallback order. -/
theorem claim_C6_metadata (fs : CacheFS) (desc : ODescriptor) :
    (desc.annots ≠ [] → pullMetadata fs desc = desc.annots) ∧
    (desc.annots = [] → ∀ blob, loadDescriptorAnnots fs desc = Except.ok blob →
      pullMetadata fs desc = blob) ∧
    (desc.annots = [] → ∀ msg, loadDescriptorAnnots fs desc = Except.error msg →
      (∀ idx, loadIndexAnnots fs = Except.ok idx → pullMetadata fs desc = idx) ∧
      (∀ msg2, loadIndexAnnots fs = Except.error msg2 → pullMetadata fs desc = [])) := by
  refine ⟨?_, ?_, ?_⟩
  · intro h
    have hlen : ¬(desc.annots.length = 0) := by
      intro h0
      exact h (List.eq_nil_of_length_eq_zero h0)
    simp [pullMetadata, hlen]
  · intro h0 blob hblob
    have hlen := loadDescriptorAnnots_ok_ne_zero fs desc blob hblob
    simp [pullMetadata, h0, hblob, hlen]
  · intro h0 msg herr
    constructor
    · intro idx hidx
      simp [pullMetadata, h0, herr, hidx]
    · intro msg2 hidx
      simp [pullMetadata, h0, herr, hidx]

/-- Witness for claim C6: descriptor annotation entries win when
present. -/
theorem claim_C6_metadata_witness :
    pullMetadata { blobPayloadAnnots := some [("k2", "v2")], indexTopAnnots := some [("k3", "v3")] }
      { mediaType := "m", digest := "sha256:ab", size := 1,
        annots := [("k1", "v1")], platform := none } = [("k1", "v1")] :=
  (claim_C6_metadata
    { blobPayloadAnnots := some [("k2", "v2")], indexTopAnnots := some [("k3", "v3")] }
    { mediaType := "m", digest := "sha256:ab", size := 1,
      annots := [("k1", "v1")], platform := none }).1 (by decide)

theorem dropWhile_head_false (p : Char → Bool) (c : Char) (l : List Char) (hc : p c = false) :
    (c :: l).dropWhile p = c :: l := by
  simp [List.dropWhile_cons, hc]

theorem trimSpaceL_no_op (c d : Char) (mid : List Char)
    (hc : goIsSpace c = false) (hd : goIsSpace d = false) :
    trimSpaceL (c :: (mid ++ [d])) = c :: (mid ++ [d]) := by
  rw [trimSpaceL, dropWhile_head_false _ _ _ hc]
  rw [show (c :: (mid ++ [d])).reverse = d :: (mid.reverse ++ [c]) by simp]
  rw [dropWhile_head_false _ _ _ hd]
  simp

theorem trimPreL_drop (pre rest : List Char) : trimPreL pre (pre ++ rest) = rest := by
  rw [trimPreL, if_pos (hasPreL_self_append pre rest)]
  simp [List.drop_left]

theorem trimSufL_slash (l : List Char) : trimSufL "/".data (l ++ ['/']) = l := by
  rw [trimSufL]
  have hsuf : hasSufL "/".data (l ++ ['/']) = true := by
    rw [hasSufL]
    rw [show (l ++ ['/']).reverse = '/' :: l.reverse by simp]
    rfl
  rw [if_pos hsuf]
  rw [show (l ++ ['/']).length - ("/".data).length = l.length by simp]
  exact List.take_left l ['/']

theorem trimPreL_no_op (pre l : List Char) (h : hasPreL pre l = false) :
    trimPreL pre l = l := by
  rw [trimPreL, if_neg (by simp [h])]

theorem normalizeRegistry_https (s : String)
    (h : hasPreL "http://".data (s.data ++ ['/']) = false) :
    normalizeRegistry ⟨"https://".data ++ (s.data ++ ['/'])⟩ = s := by
  simp only [normalizeRegistry, strData_mk]
  rw [show ("https://".data ++ (s.data ++ ['/'])) =
        'h' :: (("ttps://".data ++ s.data) ++ ['/']) from rfl]
  rw [trimSpaceL_no_op 'h' '/' ("ttps://".data ++ s.data) (by decide) (by decide)]
  rw [if_neg (by simp)]
  rw [show ('h' :: (("ttps://".data ++ s.data) ++ ['/'])) =
        "https://".data ++ (s.data ++ ['/']) from rfl]
  rw [trimPreL_drop]
  rw [trimPreL_no_op "http://".data (s.data ++ ['/']) h]
  rw [trimSufL_slash]

theorem normalizeRegistry_http (s : String) :
    normalizeRegistry ⟨"http://".data ++ (s.data ++ ['/'])⟩ = s := by
  simp only [normalizeRegistry, strData_mk]
  rw [show ("http://".data ++ (s.data ++ ['/'])) =
        'h' :: (("ttp://".data ++ s.data) ++ ['/']) from rfl]
  rw [trimSpaceL_no_op 'h' '/' ("ttp://".data ++ s.data) (by decide) (by decide)]
  rw [if_neg (by simp)]
  rw [show ('h' :: (("ttp://".data ++ s.data) ++ ['/'])) =
        "http://".data ++ (s.data ++ ['/']) from rfl]
  rw [trimPreL_no_op "https://".data ("http://".data ++ (s.data ++ ['/'])) rfl]
  rw [trimPreL_drop]
  rw [trimSufL_slash]

theorem find?_eq_none_of_all {α : Type} (p : α → Bool) (l : List α)
    (h : ∀ y ∈ l, p y = false) : l.find? p = none := by
  induction l with
  | nil => rfl
  | cons a rest ih =>
    rw [List.find?_cons, h a (by simp)]
    exact ih (fun y hy => h y (List.mem_cons_of_mem _ hy))

theorem find?_append_cons {α : Type} (p : α → Bool) (pre : List α) (x : α) (post : List α)
    (hpre : ∀ y ∈ pre, p y = false) (hx : p x = true) :
    (pre ++ x :: post).find? p = some x := by
  induction pre with
  | nil =>
    rw [List.nil_append, List.find?_cons, hx]
  | cons a rest ih =>
    rw [List.cons_append, List.find?_cons, hpre a (by simp)]
    exact ih (fun y hy => hpre y (List.mem_cons_of_mem _ hy))

/-- Claim C7: the credential resolver normalizes registry hosts by
stripping an `http://` or `https://` prefix and a trailing slash; it
scans the configured registry list for a name or URL match; it prefers
an explicit password, falls back to using a configured token as the
password with the fixed placeholder username "token" when only a token
is configured, and returns empty (anonymous) credentials without error
for every host that matches no configured registry. -/
theorem claim_C7_credentials :
    (∀ s : String, hasPreL "http://".data (s.data ++ ['/']) = false →
      normalizeRegistry ⟨"https://".data ++ (s.data ++ ['/'])⟩ = s ∧
      normalizeRegistry ⟨"http://".data ++ (s.data ++ ['/'])⟩ = s) ∧
    (∀ (registries : List RegistryConfig) (registry : String),
      normalizeRegistry registry ≠ "" →
      (∀ r ∈ registries, normalizeRegistry registry ≠ normalizeRegistry r.url ∧
        normalizeRegistry registry ≠ normalizeRegistry r.name) →
      resolveCredentials registries registry = ("", "")) ∧
    (∀ (pre post : List RegistryConfig) (reg : RegistryConfig) (registry : String),
      (∀ r ∈ pre, normalizeRegistry registry ≠ "" ∧
        normalizeRegistry registry ≠ normalizeRegistry r.url ∧
        normalizeRegistry registry ≠ normalizeRegistry r.name) →
      (normalizeRegistry registry = normalizeRegistry reg.url ∨
        normalizeRegistry registry = normalizeRegistry reg.name) →
      ((reg.password ≠ "" →
        (resolveCredentials (pre ++ reg :: post) registry).2 = reg.password ∧
        (reg.username ≠ "" →
          resolveCredentials (pre ++ reg :: post) registry = (reg.username, reg.password))) ∧
      (reg.password = "" → reg.token ≠ "" → reg.username = "" →
        resolveCredentials (pre ++ reg :: post) registry = ("token", reg.token)))) := by
  refine ⟨?_, ?_, ?_⟩
  · intro s h
    exact ⟨normalizeRegistry_https s h, normalizeRegistry_http s⟩
  · intro registries registry hn hmatch
    simp only [resolveCredentials]
    rw [find?_eq_none_of_all _ registries (fun r hr => by
      simp [hn, (hmatch r hr).1, (hmatch r hr).2])]
  · intro pre post reg registry hpre hor
    have hfind : (pre ++ reg :: post).find? (fun r =>
        !(decide (normalizeRegistry registry ≠ "") &&
          decide (normalizeRegistry registry ≠ normalizeRegistry r.url) &&
          decide (normalizeRegistry registry ≠ normalizeRegistry r.name))) = some reg := by
      apply find?_append_cons
      · intro y hy
        simp [(hpre y hy).1, (hpre y hy).2.1, (hpre y hy).2.2]
      · rcases hor with h | h <;> simp [h]
    constructor
    · intro hpw
      constructor
      · simp only [resolveCredentials, hfind]
        simp [hpw]
      · intro hu
        simp only [resolveCredentials, hfind]
        simp [hpw, hu]
    · intro hpw htok hu
      simp only [resolveCredentials, hfind]
      simp [hpw, htok, hu, defaultUsername]

/-- Witness for claim C7: a token-only registry entry resolves to the
placeholder username with the token as password. -/
theorem claim_C7_credentials_witness :
    resolveCredentials [{ name := "ghcr.io", url := "https://ghcr.io/", username := "", password := "", token := "tok123" }] "ghcr.io" = ("token", "tok123") :=
  ((claim_C7_credentials.2.2 [] [] { name := "ghcr.io", url := "https://ghcr.io/", username := "", password := "", token := "tok123" } "ghcr.io" (by simp) (Or.inl (by decide))).2) rfl (by decide) rfl

theorem PushAll_trace_binary (outcome : RPlatform → RManifestEntry → Except String ODescriptor) :
    ∀ entries, ∀ eff ∈ (PushAll outcome entries).1, ∃ q, eff = PushEffect.pushedBinary q := by
  intro entries
  induction entries with
  | nil => simp [PushAll]
  | cons pe rest ih =>
    rcases pe with ⟨platform, entry⟩
    intro eff heff
    rw [PushAll] at heff
    cases ho : outcome platform entry with
    | error msg =>
      rw [ho] at heff
      simp at heff
    | ok desc =>
      rw [ho] at heff
      simp at heff
      rcases heff with rfl | h'
      · exact ⟨platform, rfl⟩
      · exact ih eff h'

theorem PushAll_error_of_mem (outcome : RPlatform → RManifestEntry → Except String ODescriptor) :
    ∀ entries (platform : RPlatform) (entry : RManifestEntry) (msg : String),
      (platform, entry) ∈ entries → outcome platform entry = Except.error msg →
      ∃ m, (PushAll outcome entries).2 = Except.error m := by
  intro entries
  induction entries with
  | nil => simp
  | cons pe rest ih =>
    rcases pe with ⟨p0, e0⟩
    intro platform entry msg hmem hout
    rw [PushAll]
    cases ho : outcome p0 e0 with
    | error m0 =>
      refine ⟨"failed to push " ++ p0.os ++ "/" ++ p0.arch ++ ": " ++ m0, ?_⟩
      simp [ho]
    | ok desc =>
      rcases List.mem_cons.mp hmem with heq | hmem'
      · injection heq with h1 h2
        subst h1
        subst h2
        rw [ho] at hout
        exact absurd hout (by simp)
      · obtain ⟨m, hm⟩ := ih platform entry msg hmem' hout
        exact ⟨m, by simp [hm]⟩

theorem Push_of_pushAll_error (manifest : PushManifest) (reference : String) (tagLatest : Bool)
    (outcome : RPlatform → RManifestEntry → Except String ODescriptor)
    (indexPushOutcome latestTagOutcome : Except String Unit)
    (entries : List (RPlatform × RManifestEntry)) (m : String)
    (hentries : buildEntries manifest.manifests = Except.ok entries)
    (hm : (PushAll outcome entries).2 = Except.error m) :
    Push manifest reference tagLatest outcome indexPushOutcome latestTagOutcome =
      ((PushAll outcome entries).1, Except.error ("push failed: " ++ m)) := by
  rcases hPA : PushAll outcome entries with ⟨tr, res⟩
  rw [hPA] at hm
  simp only at hm
  subst hm
  simp only [Push, hentries, hPA]

/-- Claim C4: for every push of a set of platform entries, if pushing
any single platform binary fails, `PushAll` returns an error and `Push`
returns an error without reaching the index push, so no index is pushed
and neither the requested tag nor `latest` is ever written — the only
registry writes performed are platform manifests pushed by digest. -/
theorem claim_C4_push_atomic (manifest : PushManifest) (reference : String) (tagLatest : Bool)
    (outcome : RPlatform → RManifestEntry → Except String ODescriptor)
    (indexPushOutcome latestTagOutcome : Except String Unit)
    (entries : List (RPlatform × RManifestEntry)) (platform : RPlatform)
    (entry : RManifestEntry) (msg : String)
    (hentries : buildEntries manifest.manifests = Except.ok entries)
    (hmem : (platform, entry) ∈ entries)
    (hfail : outcome platform entry = Except.error msg) :
    (∃ m, (PushAll outcome entries).2 = Except.error m) ∧
    (∃ m, (Push manifest reference tagLatest outcome indexPushOutcome latestTagOutcome).2 =
      Except.error m) ∧
    (∀ eff ∈ (Push manifest reference tagLatest outcome indexPushOutcome latestTagOutcome).1,
      (∀ t, eff ≠ PushEffect.pushedIndex t) ∧ eff ≠ PushEffect.taggedLatest) := by
  obtain ⟨m, hm⟩ := PushAll_error_of_mem outcome entries platform entry msg hmem hfail
  have hPush := Push_of_pushAll_error manifest reference tagLatest outcome indexPushOutcome
    latestTagOutcome entries m hentries hm
  refine ⟨⟨m, hm⟩, ⟨"push failed: " ++ m, by rw [hPush]⟩, ?_⟩
  intro eff heff
  rw [hPush] at heff
  obtain ⟨q, rfl⟩ := PushAll_trace_binary outcome entries eff heff
  constructor
  · intro t
    simp
  · simp

/-- Witness for claim C4: a single-entry manifest whose binary push
fails makes the whole push fail. -/
theorem claim_C4_push_atomic_witness :
    ∃ m, (Push wManifest "reg.example.com/app:v1" true wFailOutcome (Except.ok ())
      (Except.ok ())).2 = Except.error m :=
  (claim_C4_push_atomic wManifest "reg.example.com/app:v1" true wFailOutcome (Except.ok ())
    (Except.ok ()) [(ParsePlatform "linux/amd64", wEntry)] (ParsePlatform "linux/amd64") wEntry
    "connection refused" rfl (by simp) rfl).2.1

/-- Witness for claim C2 at a concrete destination: the traversal entry
`../../etc/passwd` aborts extraction with the escape error. -/
theorem claim_C2_extraction_witness :
    extractTarGz "/tmp/out" [{ name := "../../etc/passwd", typeflag := TarType.reg, linkname := "" }] =
      Except.error "archive entry ../../etc/passwd escapes destination" :=
  (claim_C2_extraction [] "/tmp/out" (by decide)).2.2.2
